import Mathlib

/-!
# Verification of the file-browser repository

A shallow embedding, in Lean 4, of the algorithmic core of the
`file-browser` repository:

* the tree builder (`walkTree`, `buildGitTree`) and ignore rules
  (`shouldIgnore`, `parseGitignore`) from the tree module;
* the flattening index (`flattenTree`) from the view module;
* the control channel (`createIPCServer`'s data handler, `sendCommand`)
  from `src/ipc.ts`;
* the pane lifecycle (`closeBrowser`, `toggleBrowser`, `spawnBrowser`)
  from the terminal module, together with the `main` entry dispatch.

Filesystem directories are modelled by the inductive `FSEntry`; the live
tmux session and the on-disk identity files are modelled by the record
`TmuxWorld`; socket traffic is modelled as the list of chunks handed to
the `data` callbacks.  JavaScript runtime primitives used by the code
(`String.prototype.split`, `trim`, `localeCompare`, `JSON.parse`,
`Bun.Glob.match`, `path.join`) are modelled by explicit Lean functions,
each documented at its definition.
-/

/-! ## String primitives (models of JavaScript built-ins) -/

/-- Model of JavaScript `String.prototype.split` with a single-character
separator: splits at every occurrence of the separator, keeping empty
segments (so `"a\n".split("\n") = ["a", ""]`). -/
def jsSplitChars (sep : Char) : List Char → List Char → List String
  | [], acc => [String.mk acc.reverse]
  | c :: rest, acc =>
    if c = sep then String.mk acc.reverse :: jsSplitChars sep rest []
    else jsSplitChars sep rest (c :: acc)

def jsSplit (s : String) (sep : Char) : List String :=
  jsSplitChars sep s.data []

/-- Whitespace recognized by the model of `String.prototype.trim`. -/
def jsIsWhitespace (c : Char) : Bool :=
  c = ' ' || c = '\t' || c = '\n' || c = '\r' || c = '\x0b' || c = '\x0c'

/-- Model of JavaScript `String.prototype.trim`: strips leading and
trailing whitespace. -/
def jsTrim (s : String) : String :=
  String.mk (((s.data.dropWhile jsIsWhitespace).reverse.dropWhile jsIsWhitespace).reverse)

/-- `true` iff the string starts with the given character (used to model
`line.startsWith("#")`). -/
def headCharIs (s : String) (c : Char) : Bool :=
  match s.data with
  | [] => false
  | c' :: _ => c' = c

/-- Model of `path.join(a, b)` for the shapes this program produces: an
absolute `a` without trailing separator joined to a relative `b`. -/
def joinPath (a b : String) : String :=
  if a = "" then b else a ++ "/" ++ b

/-! ## Model of `String.prototype.localeCompare`

Bun runs on JavaScriptCore with ICU, so `localeCompare` performs ICU
root-locale collation, not code-point comparison.  We model the ICU root
collation restricted to the ASCII strings this program compares: the
primary key compares letters case-insensitively (and other characters by
code point, which places digits and punctuation before letters), and
ties are broken by a case key that sorts lowercase before uppercase,
matching ICU's root tailoring (`"a" < "B" < "b"` and `"a" < "A"`). -/

def natCmp (a b : Nat) : Ordering :=
  if a < b then .lt else if a = b then .eq else .gt

def lexCmpNat : List Nat → List Nat → Ordering
  | [], [] => .eq
  | [], _ :: _ => .lt
  | _ :: _, [] => .gt
  | a :: as, b :: bs =>
    match natCmp a b with
    | .eq => lexCmpNat as bs
    | o => o

/-- Primary collation weight of a character: letters fold to lowercase. -/
def primChar (c : Char) : Nat :=
  if 'A' ≤ c && c ≤ 'Z' then c.toNat + 32 else c.toNat

/-- Case (tertiary) weight: lowercase (and non-letters) before uppercase. -/
def caseChar (c : Char) : Nat :=
  if 'A' ≤ c && c ≤ 'Z' then 1 else 0

def localeOrd (a b : String) : Ordering :=
  match lexCmpNat (a.data.map primChar) (b.data.map primChar) with
  | .eq => lexCmpNat (a.data.map caseChar) (b.data.map caseChar)
  | o => o

/-- Model of `a.localeCompare(b)`: sign-normalized comparison result. -/
def localeCompare (a b : String) : Int :=
  match localeOrd a b with
  | .lt => -1
  | .eq => 0
  | .gt => 1

/-! ## Model of `Bun.Glob.match`

Fuel-based glob matcher covering the glob fragment relevant here:
`*` matches any run of non-separator characters, `**` any run of any
characters, `?` a single non-separator character; other characters match
themselves literally.  Bun.Glob is a port of glob-match, whose matcher
first consumes every leading `!` of the pattern, toggling a negation
flag once per `!`, and negates the result of matching the remaining
pattern — so a pattern `!keep` matches exactly the paths that `keep`
does not match. -/

def globMatchGo : Nat → List Char → List Char → Bool
  | 0, _, _ => false
  | fuel + 1, p, s =>
    match p, s with
    | [], s' => s'.isEmpty
    | '*' :: '*' :: p', s' =>
      globMatchGo fuel p' s' ||
        (match s' with
         | [] => false
         | _ :: s'' => globMatchGo fuel ('*' :: '*' :: p') s'')
    | '*' :: p', s' =>
      globMatchGo fuel p' s' ||
        (match s' with
         | [] => false
         | c :: s'' => if c = '/' then false else globMatchGo fuel ('*' :: p') s'')
    | '?' :: p', s' =>
      match s' with
      | [] => false
      | c :: s'' => decide (c ≠ '/') && globMatchGo fuel p' s''
    | c :: p', s' =>
      match s' with
      | [] => false
      | c' :: s'' => c = c' && globMatchGo fuel p' s''

/-- Consume the leading `!` characters of a pattern, toggling the
negation flag once per `!`, and return the flag with the remaining
pattern. -/
def stripNegations : List Char → Bool × List Char
  | '!' :: rest =>
    let r := stripNegations rest
    (!r.1, r.2)
  | p => (false, p)

def globMatch (pat str : String) : Bool :=
  let r := stripNegations pat.data
  let m := globMatchGo (r.2.length + str.data.length + 1) r.2 str.data
  if r.1 then !m else m

/-! ## Ignore rules and the tree data model (tree module) -/

/-- The fixed default ignore list `DEFAULT_IGNORE` from the tree module. -/
def DEFAULT_IGNORE : List String :=
  [".git", "node_modules", ".DS_Store", "__pycache__", ".claude"]

/-- `parseGitignore`, as a function of the ignore file's content (the
source reads `rootPath/.gitignore`; absence of the file is the `none`
case handled in `walkTree` below): split into lines, trim each, drop
blank lines and `#` comments.  Lines beginning with `!` are kept
unchanged. -/
def parseGitignoreLines (content : String) : List String :=
  ((jsSplit content '\n').map jsTrim).filter
    (fun line => line ≠ "" && !headCharIs line '#')

/-- `shouldIgnore` from the tree module.  `globs` is the list of pattern
strings the source wraps in `Bun.Glob`. -/
def shouldIgnore (name relPath : String) (isDir : Bool)
    (ignorePatterns : List String) (globs : List String) : Bool :=
  if ignorePatterns.contains name then true
  else
    let testPath := if isDir then relPath ++ "/" else relPath
    globs.any (fun g =>
      globMatch g testPath || globMatch g name || (isDir && globMatch g (name ++ "/")))

/-- Git status codes (`"M" | "A" | "D" | "?" | "R"`; `U` stands for the
untracked code `"?"`). -/
inductive GitStatus where
  | M | A | D | U | R
deriving DecidableEq

/-- `TreeNode` from the tree module.  `children` is present (`some`)
exactly when the source object carries the optional `children` field. -/
inductive TreeNode where
  | mk (name : String) (path : String) (isDir : Bool)
       (children : Option (List TreeNode)) (gitStatus : Option GitStatus)

def TreeNode.name : TreeNode → String
  | .mk n _ _ _ _ => n

def TreeNode.path : TreeNode → String
  | .mk _ p _ _ _ => p

def TreeNode.isDir : TreeNode → Bool
  | .mk _ _ d _ _ => d

def TreeNode.children : TreeNode → Option (List TreeNode)
  | .mk _ _ _ c _ => c

def TreeNode.gitStatus : TreeNode → Option GitStatus
  | .mk _ _ _ _ g => g

/-- A filesystem directory entry, as observed through
`readdirSync(..., { withFileTypes: true })`: a name plus either file or
directory kind, with a directory's own listing nested. -/
inductive FSEntry where
  | file (name : String)
  | dir (name : String) (entries : List FSEntry)

def FSEntry.name : FSEntry → String
  | .file n => n
  | .dir n _ => n

def FSEntry.isDir : FSEntry → Bool
  | .file _ => false
  | .dir _ _ => true

/-- The comparator `walkTree` passes to `entries.sort`: directories
first, then `localeCompare` on names. -/
def entCmp (a b : FSEntry) : Int :=
  if a.isDir ≠ b.isDir then (if a.isDir then -1 else 1)
  else localeCompare a.name b.name

def entLe (a b : FSEntry) : Prop := entCmp a b ≤ 0

instance : DecidableRel entLe := fun a b => by
  unfold entLe; infer_instance

/-- JavaScript `Array.prototype.sort` is a stable sort, and a stable
sort's output is uniquely determined by the comparator (a total
preorder) and the input order, so we model it by stable insertion
sort. -/
def sortEntries (l : List FSEntry) : List FSEntry :=
  List.insertionSort entLe l

/-- The body of the `for (const entry of entries)` loop in `walk`:
processes the (already sorted) entries of the directory `dirPath`
(relative path `relDir` from the walk root, `""` at the root),
threading the accumulated node list and the global `entryCount`.
`recurse` is the recursive call `walk` makes for subdirectories. -/
def walkLoop (maxEntries : Nat) (pats globs : List String)
    (recurse : List FSEntry → String → String → Nat → List TreeNode × Nat) :
    List FSEntry → String → String → List TreeNode × Nat → List TreeNode × Nat
  | [], _, _, acc => acc
  | e :: rest, relDir, dirPath, (nodes, cnt) =>
    if maxEntries ≤ cnt then (nodes, cnt)
    else
      let fullPath := joinPath dirPath e.name
      let relPath := if relDir = "" then e.name else relDir ++ "/" ++ e.name
      if shouldIgnore e.name relPath e.isDir pats globs then
        walkLoop maxEntries pats globs recurse rest relDir dirPath (nodes, cnt)
      else
        match e with
        | .file n =>
          walkLoop maxEntries pats globs recurse rest relDir dirPath
            (nodes ++ [TreeNode.mk n fullPath false none none], cnt + 1)
        | .dir n sub =>
          let r := recurse sub relPath fullPath (cnt + 1)
          walkLoop maxEntries pats globs recurse rest relDir dirPath
            (nodes ++ [TreeNode.mk n fullPath true (some r.1) none], r.2)

/-- The recursive `walk(dirPath, depth)` of `walkTree`.  The source
recursion is bounded by `depth > maxDepth`; we carry the equivalent
decreasing fuel `maxDepth + 1 - depth`, so the guard `depth > maxDepth`
is the `0` case.  Unreadable directories (the source's `try/catch`
around `readdirSync`) are not modelled: the `FSEntry` tree holds the
listings that `readdirSync` successfully returns. -/
def walkGo (maxEntries : Nat) (pats globs : List String) :
    Nat → List FSEntry → String → String → Nat → List TreeNode × Nat
  | 0, _, _, _, cnt => ([], cnt)
  | fuel + 1, entries, relDir, dirPath, cnt =>
    if maxEntries ≤ cnt then ([], cnt)
    else
      walkLoop maxEntries pats globs (walkGo maxEntries pats globs fuel)
        (sortEntries entries) relDir dirPath ([], cnt)

/-- `WalkOptions` (defaults `maxDepth = 4`, `maxEntries = 200`,
`ignorePatterns = DEFAULT_IGNORE`). -/
structure WalkOptions where
  maxDepth : Nat
  maxEntries : Nat
  ignorePatterns : List String

def defaultWalkOptions : WalkOptions :=
  ⟨4, 200, DEFAULT_IGNORE⟩

/-- `walkTree(rootPath, options)`.  `rootEntries` is the listing of the
root directory and `gitignore` the content of `rootPath/.gitignore`
when that file exists. -/
def walkTree (rootPath : String) (rootEntries : List FSEntry)
    (gitignore : Option String) (options : WalkOptions) : List TreeNode :=
  let globs := match gitignore with
    | none => []
    | some content => parseGitignoreLines content
  (walkGo options.maxEntries options.ignorePatterns globs
    (options.maxDepth + 1) rootEntries "" rootPath 0).1

/-- The final value of the shared `entryCount` counter of a walk; the
counter is incremented exactly once per emitted node. -/
def walkTreeCount (rootPath : String) (rootEntries : List FSEntry)
    (gitignore : Option String) (options : WalkOptions) : Nat :=
  let globs := match gitignore with
    | none => []
    | some content => parseGitignoreLines content
  (walkGo options.maxEntries options.ignorePatterns globs
    (options.maxDepth + 1) rootEntries "" rootPath 0).2

/-! ## Observing forests -/

/-- The node reached from a forest by taking, at each step, the child
list of the indexed node: `childAt f [i₀, …, iₖ]` is the node nested
`k + 1` sibling-levels below the walk root. -/
def childAt : List TreeNode → List Nat → Option TreeNode
  | _, [] => none
  | f, [i] => f[i]?
  | f, i :: is =>
    match f[i]? with
    | some n => childAt (n.children.getD []) is
    | none => none

/-- The sibling group reached by descending along `path`; `[]` names the
top-level group. -/
def siblingsAt : List TreeNode → List Nat → List TreeNode
  | f, [] => f
  | f, i :: is =>
    match f[i]? with
    | some n => siblingsAt (n.children.getD []) is
    | none => []

/-- The comparator `buildGitTree` passes to `nodes.sort` (the same
directories-first, `localeCompare`-tiebreak comparator as `walkTree`). -/
def nodeCmp (a b : TreeNode) : Int :=
  if a.isDir ≠ b.isDir then (if a.isDir then -1 else 1)
  else localeCompare a.name b.name

def nodeLe (a b : TreeNode) : Prop := nodeCmp a b ≤ 0

instance : DecidableRel nodeLe := fun a b => by
  unfold nodeLe; infer_instance

/-- Case-sensitive code-point (byte-wise) string order, the order named
by the specification sentence under scrutiny (claim C3).  This is the
specification's wording, not the code's comparator. -/
def cpLeChars : List Char → List Char → Bool
  | [], _ => true
  | _ :: _, [] => false
  | a :: as, b :: bs =>
    if a.toNat < b.toNat then true
    else if a.toNat = b.toNat then cpLeChars as bs
    else false

def cpLe (a b : String) : Bool := cpLeChars a.data b.data

/-! ## The flatten index (view module) -/

/-- `FlatEntry` from the view module (`pre` is the source's `prefix`
field, renamed because `prefix` is a Lean keyword). -/
structure FlatEntry where
  node : TreeNode
  depth : Nat
  pre : String
  connector : String
  parentIndex : Int
  firstChildIndex : Int

/-- The recursive `walk(children, depth, prefix, parentIdx)` of
`flattenTree`.  The source pushes an entry with `firstChildIndex = -1`,
then, if the node has a nonempty child list, overwrites that field with
`flat.length` — which at that moment equals the entry's own index plus
one — before recursing.  `start` is the index at which the first entry
produced by this call lands in the overall flat array, so the
overwrite is modelled by writing `start + 1` up front. -/
def flattenGo : List TreeNode → Nat → String → Int → Nat → List FlatEntry
  | [], _, _, _, _ => []
  | n :: rest, depth, pre, parentIdx, start =>
    let isLast := rest.isEmpty
    let connector := if isLast then "└── " else "├── "
    let childPre := pre ++ (if isLast then "    " else "│   ")
    let kids := n.children.getD []
    let entry : FlatEntry :=
      ⟨n, depth, pre, connector, parentIdx,
        if kids.isEmpty then -1 else ((start + 1 : Nat) : Int)⟩
    let sub :=
      if kids.isEmpty then []
      else flattenGo kids (depth + 1) childPre ((start : Nat) : Int) (start + 1)
    entry :: (sub ++ flattenGo rest depth pre parentIdx (start + 1 + sub.length))
termination_by l _ _ _ _ => sizeOf l
decreasing_by
  all_goals simp_wf
  · rcases n with ⟨nm, pth, d, cs, gs⟩
    cases cs <;> simp [TreeNode.children, Option.getD] <;> omega

/-- `flattenTree(nodes)`. -/
def flattenTree (nodes : List TreeNode) : List FlatEntry :=
  flattenGo nodes 0 "" (-1) 0

/-- The index invariant of a flattened segment: `L` is the run of
entries laid down from absolute index `start` onwards, whose top-level
entries carry parent index `pi`.  Every entry's parent index is either
`pi` or the absolute index of an earlier entry of the run, and a
non-`-1` `firstChildIndex` points at a later entry of the run whose
`parentIndex` is the entry's own absolute index. -/
def FlatOk (start : Nat) (pi : Int) (L : List FlatEntry) : Prop :=
  ∀ k e, L[k]? = some e →
    (e.parentIndex = pi ∨
      ∃ j : Nat, j < k ∧ e.parentIndex = ((start + j : Nat) : Int)) ∧
    (e.firstChildIndex = -1 ∨
      ∃ j : Nat, k < j ∧ e.firstChildIndex = ((start + j : Nat) : Int) ∧
        ∃ e', L[j]? = some e' ∧ e'.parentIndex = ((start + k : Nat) : Int))

/-! ## Git-diff mode (tree module) -/

/-- One parsed `git status --porcelain` line. -/
structure GitFileEntry where
  relPath : String
  status : GitStatus
deriving DecidableEq

/-- A file record inside a `DirBucket`. -/
structure GFile where
  name : String
  relPath : String
  status : GitStatus
deriving DecidableEq

/-- `DirBucket` from `buildGitTree`; `subdirs` models the insertion-order
`Map<string, DirBucket>` as an association list. -/
inductive Bucket where
  | mk (files : List GFile) (subdirs : List (String × Bucket))

def Bucket.files : Bucket → List GFile
  | .mk fs _ => fs

def Bucket.subdirs : Bucket → List (String × Bucket)
  | .mk _ sd => sd

/-- Update-or-insert on an insertion-ordered map (`Map.has` / `Map.set` /
`Map.get`): an absent key is appended at the end with a fresh empty
bucket before the update runs. -/
def assocUpdate : List (String × Bucket) → String → (Bucket → Bucket) →
    List (String × Bucket)
  | [], k, f => [(k, f (Bucket.mk [] []))]
  | (k', b) :: rest, k, f =>
    if k' = k then (k', f b) :: rest
    else (k', b) :: assocUpdate rest k f

/-- The per-change insertion of `buildGitTree`: descend along all path
segments but the last, creating buckets as needed, and append the file
record to the final bucket (`parts` is `relPath.split("/")`, never
empty for the nonempty paths git reports). -/
def bucketInsert : Bucket → List String → String → GitStatus → Bucket
  | b, [], _, _ => b
  | .mk fs sd, [last], relPath, st => .mk (fs ++ [⟨last, relPath, st⟩]) sd
  | .mk fs sd, seg :: rest, relPath, st =>
    .mk fs (assocUpdate sd seg (fun b => bucketInsert b rest relPath st))

/-- First segment of a relative path (`relPath.split("/")[0]`). -/
def headSeg (relPath : String) : String :=
  (jsSplit relPath '/').headD ""

/-- One iteration of the grouping loop of `buildGitTree`: a change
whose top-level directory is in the default ignore set is skipped;
otherwise it is inserted into the nested bucket structure. -/
def gitStep (b : Bucket) (c : GitFileEntry) : Bucket :=
  if DEFAULT_IGNORE.contains (headSeg c.relPath) then b
  else bucketInsert b (jsSplit c.relPath '/') c.relPath c.status

/-- The grouping loop of `buildGitTree` over all changes. -/
def buildBucket (changes : List GitFileEntry) : Bucket :=
  changes.foldl gitStep (Bucket.mk [] [])

/-- `bucketToNodes(bucket, parentPath)`: subdirectory nodes (recursively
converted), then file nodes, then the directories-first
`localeCompare` sort.  The recursion follows the nested bucket
structure; `fuel` bounds its depth and is instantiated below with a
value strictly larger than any path's segment count. -/
def bucketToNodes (rootPath : String) : Nat → Bucket → String → List TreeNode
  | 0, _, _ => []
  | fuel + 1, b, parentPath =>
    let dirNodes := b.subdirs.map (fun pr =>
      let dirFullPath := if parentPath = "" then pr.1 else parentPath ++ "/" ++ pr.1
      TreeNode.mk pr.1 (joinPath rootPath dirFullPath) true
        (some (bucketToNodes rootPath fuel pr.2 dirFullPath)) none)
    let fileNodes := b.files.map (fun f =>
      TreeNode.mk f.name (joinPath rootPath f.relPath) false none (some f.status))
    List.insertionSort nodeLe (dirNodes ++ fileNodes)

/-- Fuel exceeding the deepest nesting `buildBucket` can create from
these changes. -/
def bucketFuel (changes : List GitFileEntry) : Nat :=
  (changes.map (fun c => (jsSplit c.relPath '/').length)).sum + 1

/-- `buildGitTree(rootPath)`, as a function of the parsed change list
(`getGitChanges` is the subprocess wrapper; its failure case is the
empty list, which the source returns unchanged). -/
def buildGitTree (rootPath : String) (changes : List GitFileEntry) : List TreeNode :=
  if changes.isEmpty then []
  else bucketToNodes rootPath (bucketFuel changes) (buildBucket changes) ""

/-! ## Model of `JSON.parse` (control channel, `src/ipc.ts`)

A fuel-based recursive-descent parser for JSON values.  String escape
sequences are not modelled (a `\` inside a string literal fails the
parse); none of the wire messages this program exchanges contain
them. -/

inductive Json where
  | null
  | bool (b : Bool)
  | num (n : Int)
  | str (s : String)
  | arr (elems : List Json)
  | obj (fields : List (String × Json))

def jsonWs (c : Char) : Bool :=
  c = ' ' || c = '\t' || c = '\n' || c = '\r'

def skipWs : List Char → List Char
  | [] => []
  | c :: rest => if jsonWs c then skipWs rest else c :: rest

def parseStringBody : List Char → List Char → Option (String × List Char)
  | [], _ => none
  | c :: rest, acc =>
    if c = '"' then some (String.mk acc.reverse, rest)
    else if c = '\\' then none
    else parseStringBody rest (c :: acc)

def parseDigits : List Char → Nat → Bool → Option (Nat × List Char)
  | [], n, seen => if seen then some (n, []) else none
  | c :: rest, n, seen =>
    if '0' ≤ c && c ≤ '9' then parseDigits rest (n * 10 + (c.toNat - '0'.toNat)) true
    else if seen then some (n, c :: rest) else none

def isPrefixOf : List Char → List Char → Option (List Char)
  | [], s => some s
  | _, [] => none
  | c :: p, c' :: s => if c = c' then isPrefixOf p s else none

/-- Parsing tasks: a value, the field list of an object after its
opening brace, or the element list of an array after its opening
bracket.  A single fuel-indexed function handles all three so that the
recursion is structural. -/
inductive JTask where
  | value (s : List Char)
  | objPairs (s : List Char) (acc : List (String × Json))
  | arrItems (s : List Char) (acc : List Json)

def parseJ : Nat → JTask → Option (Json × List Char)
  | 0, _ => none
  | fuel + 1, .value s =>
    match skipWs s with
    | [] => none
    | '"' :: rest =>
      match parseStringBody rest [] with
      | some (str, rest') => some (.str str, rest')
      | none => none
    | '{' :: rest =>
      match skipWs rest with
      | '}' :: rest' => some (.obj [], rest')
      | _ => parseJ fuel (.objPairs rest [])
    | '[' :: rest =>
      match skipWs rest with
      | ']' :: rest' => some (.arr [], rest')
      | _ => parseJ fuel (.arrItems rest [])
    | '-' :: rest =>
      match parseDigits rest 0 false with
      | some (n, rest') => some (.num (-(n : Int)), rest')
      | none => none
    | c :: rest =>
      if '0' ≤ c && c ≤ '9' then
        match parseDigits (c :: rest) 0 false with
        | some (n, rest') => some (.num (n : Int), rest')
        | none => none
      else
        match isPrefixOf "true".data (c :: rest) with
        | some rest' => some (.bool true, rest')
        | none =>
          match isPrefixOf "false".data (c :: rest) with
          | some rest' => some (.bool false, rest')
          | none =>
            match isPrefixOf "null".data (c :: rest) with
            | some rest' => some (.null, rest')
            | none => none
  | fuel + 1, .objPairs s acc =>
    match skipWs s with
    | '"' :: rest =>
      match parseStringBody rest [] with
      | none => none
      | some (key, rest') =>
        match skipWs rest' with
        | ':' :: rest2 =>
          match parseJ fuel (.value rest2) with
          | none => none
          | some (v, rest3) =>
            match skipWs rest3 with
            | ',' :: more => parseJ fuel (.objPairs more (acc ++ [(key, v)]))
            | '}' :: more => some (.obj (acc ++ [(key, v)]), more)
            | _ => none
        | _ => none
    | _ => none
  | fuel + 1, .arrItems s acc =>
    match parseJ fuel (.value s) with
    | none => none
    | some (v, rest) =>
      match skipWs rest with
      | ',' :: more => parseJ fuel (.arrItems more (acc ++ [v]))
      | ']' :: more => some (.arr (acc ++ [v]), more)
      | _ => none

/-- `JSON.parse(text)`: parse one value and require only whitespace to
remain; `none` models a thrown `SyntaxError`. -/
def jsonParse (text : String) : Option Json :=
  match parseJ (2 * text.data.length + 4) (.value text.data) with
  | some (v, rest) => if (skipWs rest).isEmpty then some v else none
  | none => none

/-! ## Control channel (`src/ipc.ts`) -/

/-- The `data` callback of the socket server in `createIPCServer`: split
the chunk on newlines and hand every non-blank segment that
`JSON.parse` accepts to `onMessage` (the `as ControllerMessage` cast
performs no validation, so the parsed JSON value itself is what is
delivered).  A segment that fails to parse is swallowed by the empty
`catch`.  No state survives between calls: the handler has no buffer. -/
def serverProcessChunk (chunk : String) : List Json :=
  (jsSplit chunk '\n').filterMap (fun line =>
    if jsTrim line ≠ "" then jsonParse line else none)

/-- All messages delivered to `onMessage` across a sequence of `data`
events (each chunk is processed independently). -/
def serverDeliveries (chunks : List String) : List Json :=
  (chunks.map serverProcessChunk).flatten

/-- The client state of `sendCommand`: its line buffer, whether the
3-second timeout is still pending (`clearTimeout` has not run), and
the promise's resolution (`none` while pending; `some none` resolved
with the `null` sentinel; `some (some j)` resolved with a reply). -/
structure SendState where
  buffer : String
  timeoutActive : Bool
  result : Option (Option Json)

def initialSendState : SendState := ⟨"", true, none⟩

/-- The external events `sendCommand`'s callbacks react to. -/
inductive SendEvent where
  | connectFail
  | data (chunk : String)
  | closeEvt
  | errorEvt
  | timeoutFire

/-- `resolve(r)`: a promise resolves at most once. -/
def sendResolve (s : SendState) (r : Option Json) : SendState :=
  if s.result.isSome then s else { s with result := some r }

/-- The `for (const line of lines)` loop in the client's `data`
handler: for each non-blank segment it first runs `clearTimeout`,
then attempts `JSON.parse`; success resolves and returns, failure is
caught and the loop continues — with the timeout already cleared. -/
def sendDataLines : List String → SendState → SendState
  | [], s => s
  | line :: rest, s =>
    if s.result.isSome then s
    else if jsTrim line ≠ "" then
      let s' := { s with timeoutActive := false }
      match jsonParse line with
      | some j => { s' with result := some (some j) }
      | none => sendDataLines rest s'
    else sendDataLines rest s

def sendStep (s : SendState) : SendEvent → SendState
  | .connectFail => sendResolve { s with timeoutActive := false } none
  | .closeEvt => sendResolve { s with timeoutActive := false } none
  | .errorEvt => sendResolve { s with timeoutActive := false } none
  | .timeoutFire =>
    if s.timeoutActive then sendResolve { s with timeoutActive := false } none else s
  | .data chunk =>
    let buf := s.buffer ++ chunk
    sendDataLines (jsSplit buf '\n') { s with buffer := buf }

def sendRun (events : List SendEvent) : SendState :=
  events.foldl sendStep initialSendState

/-! ## Pane lifecycle (terminal module, session-keyed variant) -/

/-- The world visible to the pane-lifecycle code: whether `$TMUX` is
set, the identity files under `/tmp` (path ↦ content), the identifiers
of live tmux panes, the source pane's identifier, the identifiers the
multiplexer would assign to newly split panes, and the number of
`console.error` calls made so far. -/
structure TmuxWorld where
  tmuxEnv : Bool
  files : List (String × String)
  panes : List String
  curPane : String
  paneSupply : List String
  errors : Nat
deriving DecidableEq

def lookupFile (w : TmuxWorld) (p : String) : Option String :=
  (w.files.find? (fun f => f.1 = p)).map (fun f => f.2)

/-- `detectTmux()`: `!!process.env.TMUX`. -/
def detectTmux (w : TmuxWorld) : Bool := w.tmuxEnv

/-- `getCurrentPaneId()`: `tmux display-message -p '#{pane_id}'`;
outside a tmux session the subprocess produces no output, so the
trimmed result is empty. -/
def getCurrentPaneId (w : TmuxWorld) : String :=
  if w.tmuxEnv then w.curPane else ""

/-- `getPaneIdFile(sourcePaneId)`: strip non-alphanumerics. -/
def getPaneIdFile (sourcePaneId : String) : String :=
  "/tmp/file-browser-pane-" ++ String.mk (sourcePaneId.data.filter (fun c => c.isAlphanum))

/-- `readPaneId`: `none` when the file does not exist, otherwise the
trimmed content. -/
def readPaneId (w : TmuxWorld) (paneIdFile : String) : Option String :=
  (lookupFile w paneIdFile).map jsTrim

def savePaneId (w : TmuxWorld) (paneIdFile id : String) : TmuxWorld :=
  { w with files := (w.files.filter (fun f => f.1 ≠ paneIdFile)) ++ [(paneIdFile, id)] }

/-- `clearPaneId`: delete the file if present (errors swallowed). -/
def clearPaneId (w : TmuxWorld) (paneIdFile : String) : TmuxWorld :=
  { w with files := w.files.filter (fun f => f.1 ≠ paneIdFile) }

/-- `paneExists(paneId)`: `tmux display-message -t <id>` exits 0 exactly
when the pane is live. -/
def paneExists (w : TmuxWorld) (paneId : String) : Bool :=
  w.tmuxEnv && w.panes.contains paneId

def killPane (w : TmuxWorld) (paneId : String) : TmuxWorld :=
  { w with panes := w.panes.filter (fun p => p ≠ paneId) }

/-- `createNewPane`: `tmux split-window … -P -F '#{pane_id}'` yields the
next identifier from the supply (an empty supply models a failed
split, which resolves `null`); the identifier is persisted and focus
returns to the source pane. -/
def createNewPane (w : TmuxWorld) (paneIdFile : String) : TmuxWorld × Option String :=
  match w.paneSupply with
  | [] => (w, none)
  | pid :: rest =>
    (savePaneId { w with panes := w.panes ++ [pid], paneSupply := rest } paneIdFile pid,
      some pid)

/-- `spawnBrowser(cwd)`: bail out (one `console.error`, resolve `null`)
when tmux is not detected; otherwise reuse a live persisted pane
(`reusePane` only sends keystrokes, leaving this state unchanged) or
split a new one. -/
def spawnBrowser (w : TmuxWorld) : TmuxWorld × Option String :=
  if !detectTmux w then ({ w with errors := w.errors + 1 }, none)
  else
    let paneIdFile := getPaneIdFile (getCurrentPaneId w)
    match readPaneId w paneIdFile with
    | some pid =>
      if pid ≠ "" && paneExists w pid then (w, some pid)
      else createNewPane w paneIdFile
    | none => createNewPane w paneIdFile

/-- `closeBrowser()`: read the persisted identifier; a missing file or
falsy (empty) content returns immediately; otherwise kill the pane if
it is live and clear the identity file. -/
def closeBrowser (w : TmuxWorld) : TmuxWorld :=
  let paneIdFile := getPaneIdFile (getCurrentPaneId w)
  match readPaneId w paneIdFile with
  | none => w
  | some pid =>
    if pid = "" then w
    else
      let w1 := if paneExists w pid then killPane w pid else w
      clearPaneId w1 paneIdFile

/-- `toggleBrowser(cwd)`. -/
def toggleBrowser (w : TmuxWorld) : TmuxWorld :=
  let paneIdFile := getPaneIdFile (getCurrentPaneId w)
  match readPaneId w paneIdFile with
  | some pid =>
    if pid ≠ "" && paneExists w pid then closeBrowser w
    else (spawnBrowser (clearPaneId w paneIdFile)).1
  | none => (spawnBrowser (clearPaneId w paneIdFile)).1

/-- The `toggle` branch of `main()` in the CLI entry: `await
toggleBrowser(cwd); break;` — the function returns normally and the
process exits with status 0 (the `process.exit(1)` calls in `main` are
on the `refresh` branch and in the top-level `catch`, which no
absorbed lifecycle failure reaches). -/
def mainToggle (w : TmuxWorld) : TmuxWorld × Nat :=
  (toggleBrowser w, 0)

/-! ## Statements taken from the specification's wording

These definitions follow the words of the specification sentences under
scrutiny (not the code); each claim theorem compares them against the
embedded code. -/

/-- The matching rule exactly as claim C4 words it: static name, or a
pattern matching the path relative to the walked root, or the bare
name, or (for directories) the name with a trailing separator. -/
def claimedIgnore (name relPath : String) (isDir : Bool)
    (ignorePatterns : List String) (globs : List String) : Bool :=
  ignorePatterns.contains name ||
    globs.any (fun g =>
      globMatch g relPath || globMatch g name || (isDir && globMatch g (name ++ "/")))

/-- The matching rule with the one correction the code forces: for
directories the path test runs against the relative path with a
trailing separator appended, not against the bare relative path. -/
def amendedIgnore (name relPath : String) (isDir : Bool)
    (ignorePatterns : List String) (globs : List String) : Bool :=
  ignorePatterns.contains name ||
    globs.any (fun g =>
      globMatch g (if isDir then relPath ++ "/" else relPath) ||
        globMatch g name || (isDir && globMatch g (name ++ "/")))

/-! ## Concrete inputs used by witnesses and counterexamples -/

/-- `"f000"`, `"f001"`, … : zero-padded file names. -/
def padName (i : Nat) : String :=
  let s := Nat.repr i
  "f" ++ String.mk (List.replicate (3 - s.length) '0') ++ s

/-- A directory listing of 500 flat files, none of them ignored. -/
def files500 : List FSEntry :=
  (List.range 500).map (fun i => FSEntry.file (padName i))

/-- Two sibling files whose code-point order and locale order differ. -/
def twoFiles : List FSEntry := [.file "B", .file "a"]

/-- A chain `a/b/c/d/e`: the file `e` sits five levels below the root. -/
def chain5 : List FSEntry :=
  [.dir "a" [.dir "b" [.dir "c" [.dir "d" [.file "e"]]]]]

/-- A one-node forest for the flatten witness. -/
def oneNodeForest : List TreeNode := [TreeNode.mk "x" "/r/x" false none none]

/-- A two-level forest for the flatten witness: a directory with one
file child. -/
def dirForest : List TreeNode :=
  [TreeNode.mk "d" "/r/d" true (some [TreeNode.mk "x" "/r/d/x" false none none]) none]

/-- A session whose identity file exists but holds only whitespace
(`readFileSync(...).trim()` is falsy). -/
def worldStaleEmpty : TmuxWorld :=
  ⟨true, [("/tmp/file-browser-pane-1", " ")], [], "%1", [], 0⟩

/-- A session whose identity file holds a pane identifier that is no
longer live. -/
def worldStaleId : TmuxWorld :=
  ⟨true, [("/tmp/file-browser-pane-1", "%9")], [], "%1", [], 0⟩

/-- A world in which tmux is not detected (`$TMUX` unset). -/
def worldNoTmux : TmuxWorld := ⟨false, [], [], "%1", ["%5"], 0⟩

/-- Changed paths for the git-diff ignore test: one under a top-level
`node_modules`, one with `node_modules` at a deeper segment. -/
def changesIgnoreMix : List GitFileEntry :=
  [⟨"node_modules/x", .M⟩, ⟨"pkg/node_modules/x", .A⟩]

/-! ## Helper lemmas -/

theorem lookupFile_clearPaneId (w : TmuxWorld) (f : String) :
    lookupFile (clearPaneId w f) f = none := by
  unfold lookupFile clearPaneId
  have hnone : List.find? (fun x => decide (x.1 = f))
      (List.filter (fun x => decide (x.1 ≠ f)) w.files) = none := by
    rw [List.find?_eq_none]
    intro x hx
    have := (List.mem_filter.mp hx).2
    simpa using this
  simp [hnone]

theorem readPaneId_clearPaneId (w : TmuxWorld) (f : String) :
    readPaneId (clearPaneId w f) f = none := by
  simp [readPaneId, lookupFile_clearPaneId]

theorem closeBrowser_fields (w : TmuxWorld) :
    (closeBrowser w).tmuxEnv = w.tmuxEnv ∧ (closeBrowser w).curPane = w.curPane := by
  unfold closeBrowser
  cases h : readPaneId w (getPaneIdFile (getCurrentPaneId w)) with
  | none => simp [h]
  | some pid =>
    by_cases hp : pid = ""
    · simp [h, hp]
    · simp only [h, if_neg hp]
      split <;> simp [clearPaneId, killPane]

theorem closeBrowser_clears (w : TmuxWorld) (pid : String)
    (hread : readPaneId w (getPaneIdFile (getCurrentPaneId w)) = some pid)
    (hne : pid ≠ "") :
    lookupFile (closeBrowser w) (getPaneIdFile (getCurrentPaneId w)) = none := by
  unfold closeBrowser
  simp only [hread, if_neg hne]
  exact lookupFile_clearPaneId _ _

theorem closeBrowser_idem (w : TmuxWorld) :
    closeBrowser (closeBrowser w) = closeBrowser w := by
  cases h : readPaneId w (getPaneIdFile (getCurrentPaneId w)) with
  | none =>
    have h1 : closeBrowser w = w := by unfold closeBrowser; simp [h]
    rw [h1, h1]
  | some pid =>
    by_cases hp : pid = ""
    · have h1 : closeBrowser w = w := by unfold closeBrowser; simp [h, hp]
      rw [h1, h1]
    · have hcur : getCurrentPaneId (closeBrowser w) = getCurrentPaneId w := by
        unfold getCurrentPaneId
        rw [(closeBrowser_fields w).1, (closeBrowser_fields w).2]
      have hfiles : lookupFile (closeBrowser w) (getPaneIdFile (getCurrentPaneId w)) = none :=
        closeBrowser_clears w pid h hp
      have h2 : readPaneId (closeBrowser w)
          (getPaneIdFile (getCurrentPaneId (closeBrowser w))) = none := by
        rw [hcur]
        simp [readPaneId, hfiles]
      generalize hgen : closeBrowser w = w' at h2 ⊢
      unfold closeBrowser
      simp [h2]

theorem buildBucket_foldl_filter (changes : List GitFileEntry) (b : Bucket) :
    changes.foldl gitStep b =
      (changes.filter
        (fun c => !(DEFAULT_IGNORE.contains (headSeg c.relPath)))).foldl gitStep b := by
  induction changes generalizing b with
  | nil => rfl
  | cons c rest ih =>
    rw [List.foldl_cons, List.filter_cons]
    cases h : DEFAULT_IGNORE.contains (headSeg c.relPath) with
    | true =>
      have hstep : gitStep b c = b := by unfold gitStep; rw [if_pos h]
      rw [hstep]
      simp only [h, Bool.not_true]
      rw [if_neg (by simp : ¬(false = true))]
      exact ih b
    | false =>
      simp only [h, Bool.not_false]
      rw [if_pos trivial, List.foldl_cons]
      exact ih (gitStep b c)

/-! ## Claim C8 (corrected) -/

/-- C8 (counterexample): when the identity file exists but its content
trims to the empty string, `closeBrowser` returns before reaching
`clearPaneId`, so calling Close twice leaves the identity file in
place — against the claim that Close always clears it. -/
theorem C8_close_counterexample :
    closeBrowser (closeBrowser worldStaleEmpty) = worldStaleEmpty ∧
    lookupFile (closeBrowser (closeBrowser worldStaleEmpty))
      "/tmp/file-browser-pane-1" = some " " := by
  decide

/-- C8 (amended): Close is idempotent (and, being a total function of
the world, never errors), and whenever the identity file yields a
non-empty pane identifier Close removes the file regardless of whether
the pane is live; only a present-but-blank identity file is left in
place. -/
theorem C8_close_amended (w : TmuxWorld) :
    closeBrowser (closeBrowser w) = closeBrowser w ∧
    (∀ pid, readPaneId w (getPaneIdFile (getCurrentPaneId w)) = some pid → pid ≠ "" →
      lookupFile (closeBrowser w) (getPaneIdFile (getCurrentPaneId w)) = none) :=
  ⟨closeBrowser_idem w, fun pid h hne => closeBrowser_clears w pid h hne⟩

theorem C8_close_amended_witness :
    closeBrowser (closeBrowser worldStaleId) = closeBrowser worldStaleId ∧
    readPaneId worldStaleId (getPaneIdFile (getCurrentPaneId worldStaleId)) = some "%9" ∧
    lookupFile (closeBrowser worldStaleId)
      (getPaneIdFile (getCurrentPaneId worldStaleId)) = none :=
  ⟨(C8_close_amended worldStaleId).1, by decide,
    (C8_close_amended worldStaleId).2 "%9" (by decide) (by decide)⟩

/-! ## Claim C9 (corrected) -/

/-- C9 (counterexample): with tmux not detected, the toggle command
reports the failure once but `main` then returns normally, so the
process exits with status 0, not non-zero. -/
theorem C9_no_tmux_counterexample :
    (mainToggle worldNoTmux).2 = 0 ∧ (mainToggle worldNoTmux).1.errors = 1 := by
  decide

/-- C9 (amended): when the multiplexer is not detected the requested
toggle/spawn operation is abandoned — exactly one error message is
written and no pane is created — but the process completes normally
with exit status 0 rather than exiting non-zero. -/
theorem C9_no_tmux_amended (w : TmuxWorld) (h : w.tmuxEnv = false) :
    (mainToggle w).2 = 0 ∧ (mainToggle w).1.errors = w.errors + 1 ∧
    (mainToggle w).1.panes = w.panes := by
  unfold mainToggle toggleBrowser
  cases hr : readPaneId w (getPaneIdFile (getCurrentPaneId w)) with
  | none => simp [hr, spawnBrowser, detectTmux, clearPaneId, h]
  | some pid => simp [hr, paneExists, h, spawnBrowser, detectTmux, clearPaneId]

theorem C9_no_tmux_amended_witness :
    worldNoTmux.tmuxEnv = false ∧
    ((mainToggle worldNoTmux).2 = 0 ∧
      (mainToggle worldNoTmux).1.errors = worldNoTmux.errors + 1 ∧
      (mainToggle worldNoTmux).1.panes = worldNoTmux.panes) :=
  ⟨rfl, C9_no_tmux_amended worldNoTmux rfl⟩

/-! ## Claim C4 (corrected) -/

/-- C4 (counterexample): the claimed if-and-only-if fails twice over.
For a directory the code tests the glob against the relative path with
a trailing separator appended, so the common gitignore pattern
`foo/bar/` matches the directory `foo/bar` even though it matches none
of the forms the claim lists.  And a negated line is anything but
inert: `Bun.Glob` negates a pattern starting with `!`, so the kept
line `!keep` matches the unrelated name `other` (and fails to match
`keep`), and `shouldIgnore` therefore ignores an unrelated file. -/
theorem C4_ignore_counterexample :
    shouldIgnore "bar" "foo/bar" true [] ["foo/bar/"] = true ∧
    claimedIgnore "bar" "foo/bar" true [] ["foo/bar/"] = false ∧
    globMatch "!keep" "other" = true ∧
    globMatch "!keep" "keep" = false ∧
    shouldIgnore "other.txt" "other.txt" false [] ["!keep"] = true := by
  decide

/-- C4 (amended): `shouldIgnore` returns true iff the name is in the
static set, or some pattern matches the test path — the path relative
to the walked root with a trailing separator appended when the entry
is a directory — or some pattern matches the bare name, or (for
directories) the name with a trailing separator.  `parseGitignore`
keeps a negated line unchanged, but the matcher is not negation-free:
a leading `!` negates the pattern, so a kept `!p` line matches exactly
the paths `p` does not match (matcher-level negation, not gitignore
re-inclusion). -/
theorem C4_ignore_amended :
    (∀ name relPath isDir pats globs,
      shouldIgnore name relPath isDir pats globs =
        amendedIgnore name relPath isDir pats globs) ∧
    parseGitignoreLines "!keep\n# comment\n\nbuild/" = ["!keep", "build/"] ∧
    (∀ p s, globMatch ("!" ++ p) s = !(globMatch p s)) := by
  refine ⟨?_, rfl, ?_⟩
  · intro name relPath isDir pats globs
    unfold shouldIgnore amendedIgnore
    by_cases h : pats.contains name <;> simp [h]
  · intro p s
    unfold globMatch
    rw [show ("!" ++ p).data = '!' :: p.data from by rw [String.data_append]; rfl]
    simp only [stripNegations]
    cases hn : (stripNegations p.data).1 <;> simp [hn]

/-! ## Claim C5 (corrected) -/

/-- C5 (counterexample): the server's `data` handler keeps no buffer
between reads, so a `ping` split across two reads is never delivered,
although the same bytes arriving in one read deliver it exactly
once. -/
theorem C5_server_counterexample :
    serverDeliveries ["\x7b\"type\":", "\"ping\"\x7d\n"] = [] ∧
    serverProcessChunk "\x7b\"type\":\"ping\"\x7d\n" =
      [Json.obj [("type", Json.str "ping")]] :=
  ⟨rfl, rfl⟩

/-- C5 (amended): each read is split on newlines and every non-blank
segment is parsed independently, with no buffering across reads: a
single write carrying several newline-terminated messages delivers
each exactly once, a segment that is not valid JSON is dropped
silently (the handler is total — the server does not crash), and a
message fragmented across two reads is lost. -/
theorem C5_server_amended :
    (∀ c1 c2 : String,
      serverDeliveries [c1, c2] = serverProcessChunk c1 ++ serverProcessChunk c2) ∧
    serverProcessChunk "\x7b\"type\":\"refresh\"\x7d\n\x7b\"type\":\"ping\"\x7d\n" =
      [Json.obj [("type", Json.str "refresh")], Json.obj [("type", Json.str "ping")]] ∧
    serverProcessChunk "garbage\n" = [] ∧
    serverDeliveries ["\x7b\"type\":\"refresh", "\"\x7d\n"] = [] := by
  refine ⟨fun c1 c2 => ?_, rfl, rfl, rfl⟩
  simp [serverDeliveries]

/-! ## Claim C6 (code bug) -/

/-- C6: the client's `data` handler runs `clearTimeout` before
`JSON.parse`, so a malformed reply on a connection that stays open
cancels the 3-second timeout without resolving the promise — after
`data "oops\n"` the state is unresolved with the timeout cleared, and
a timeout firing can no longer resolve it; `sendCommand` hangs instead
of resolving to the `null` sentinel.  (On a well-formed reply the
machine resolves with the parsed message, and with no traffic the
timeout resolves `null`, as the claim describes.) -/
theorem C6_sendCommand_malformed_hang :
    (sendRun [.data "oops\n"]).result = none ∧
    (sendRun [.data "oops\n"]).timeoutActive = false ∧
    (sendStep (sendRun [.data "oops\n"]) .timeoutFire).result = none ∧
    (sendRun [.data "\x7b\"type\":\"pong\"\x7d\n"]).result =
      some (some (Json.obj [("type", Json.str "pong")])) ∧
    (sendRun [.timeoutFire]).result = some none :=
  ⟨rfl, rfl, rfl, rfl, rfl⟩

/-! ## Claim C10 (confirmed) -/

/-- C10: in git-diff mode only the first path segment of each changed
path is checked against the default ignore set — the grouping is
unchanged when changes with an ignored first segment are filtered out,
and concretely `node_modules/x` is dropped while `pkg/node_modules/x`
survives into the forest. -/
theorem C10_git_top_segment :
    (∀ changes : List GitFileEntry,
      buildBucket changes =
        buildBucket (changes.filter
          (fun c => !(DEFAULT_IGNORE.contains (headSeg c.relPath))))) ∧
    buildGitTree "/r" changesIgnoreMix =
      [TreeNode.mk "pkg" "/r/pkg" true
        (some [TreeNode.mk "node_modules" "/r/pkg/node_modules" true
          (some [TreeNode.mk "x" "/r/pkg/node_modules/x" false none (some .A)]) none])
        none] :=
  ⟨fun changes => buildBucket_foldl_filter changes (Bucket.mk [] []), rfl⟩

/-! ## Counting lemmas for the walk (claim C2) -/

theorem walkGo_cap (maxE : Nat) (pats globs : List String) (fuel : Nat)
    (entries : List FSEntry) (relDir dirPath : String) (cnt : Nat)
    (h : maxE ≤ cnt) :
    walkGo maxE pats globs fuel entries relDir dirPath cnt = ([], cnt) := by
  cases fuel with
  | zero => rfl
  | succ f => unfold walkGo; rw [if_pos h]

theorem walkLoop_count (maxE : Nat) (pats globs : List String)
    (recurse : List FSEntry → String → String → Nat → List TreeNode × Nat)
    (hrec : ∀ sub rp fp c, c ≤ maxE → (recurse sub rp fp c).2 ≤ maxE) :
    ∀ (entries : List FSEntry) (relDir dirPath : String)
      (ns : List TreeNode) (c : Nat), c ≤ maxE →
      (walkLoop maxE pats globs recurse entries relDir dirPath (ns, c)).2 ≤ maxE := by
  intro entries
  induction entries with
  | nil => intro rd dp ns c h; simpa [walkLoop] using h
  | cons e rest ih =>
    intro rd dp ns c h
    unfold walkLoop
    by_cases hc : maxE ≤ c
    · rw [if_pos hc]
      exact h
    · rw [if_neg hc]
      by_cases hig : shouldIgnore e.name
          (if rd = "" then e.name else rd ++ "/" ++ e.name) e.isDir pats globs
      · simp only [hig, if_pos]
        exact ih rd dp ns c h
      · simp only [hig, if_neg, Bool.false_eq_true, not_false_eq_true]
        cases e with
        | file n =>
          exact ih rd dp _ (c + 1) (by omega)
        | dir n sub =>
          have hr : (recurse sub (if rd = "" then FSEntry.name (.dir n sub)
              else rd ++ "/" ++ FSEntry.name (.dir n sub)) (joinPath dp (FSEntry.name (.dir n sub)))
              (c + 1)).2 ≤ maxE :=
            hrec _ _ _ _ (by omega)
          exact ih rd dp _ _ hr

theorem walkGo_count (maxE : Nat) (pats globs : List String) :
    ∀ (fuel : Nat) (entries : List FSEntry) (relDir dirPath : String) (cnt : Nat),
      cnt ≤ maxE →
      (walkGo maxE pats globs fuel entries relDir dirPath cnt).2 ≤ maxE := by
  intro fuel
  induction fuel with
  | zero => intro entries rd dp cnt h; simpa [walkGo] using h
  | succ f ih =>
    intro entries rd dp cnt h
    unfold walkGo
    by_cases hc : maxE ≤ cnt
    · rw [if_pos hc]
      exact h
    · rw [if_neg hc]
      exact walkLoop_count maxE pats globs _
        (fun sub rp fp c hcle => ih sub rp fp c hcle) _ rd dp [] cnt h

/-! ## Claim C2 (confirmed) -/

set_option maxRecDepth 100000 in
/-- C2: with 500 non-ignored flat files and the default options the walk
emits exactly 200 nodes in total; in general the final value of the
shared counter never exceeds `maxEntries`, and once the counter has
reached `maxEntries` the walk emits nothing more anywhere (`walkGo`
returns immediately at every depth). -/
theorem C2_entry_cap :
    (walkTree "/r" files500 none defaultWalkOptions).length = 200 ∧
    walkTreeCount "/r" files500 none defaultWalkOptions = 200 ∧
    (∀ root entries gitignore options,
      walkTreeCount root entries gitignore options ≤ options.maxEntries) ∧
    (∀ maxE pats globs fuel entries relDir dirPath cnt, maxE ≤ cnt →
      walkGo maxE pats globs fuel entries relDir dirPath cnt = ([], cnt)) := by
  refine ⟨by decide, by decide, ?_, ?_⟩
  · intro root entries gitignore options
    unfold walkTreeCount
    exact walkGo_count _ _ _ _ _ _ _ _ (Nat.zero_le _)
  · intro maxE pats globs fuel entries relDir dirPath cnt h
    exact walkGo_cap maxE pats globs fuel entries relDir dirPath cnt h

theorem C2_entry_cap_witness :
    (200 : Nat) ≤ 200 ∧
    walkGo 200 DEFAULT_IGNORE [] 3 [FSEntry.file "x"] "" "/r" 200 = ([], 200) :=
  ⟨by decide, C2_entry_cap.2.2.2 200 DEFAULT_IGNORE [] 3 [FSEntry.file "x"] "" "/r" 200 (by decide)⟩

/-! ## Shape of walk output (claims C7 and C3) -/

theorem childAt_nil : ∀ path, childAt ([] : List TreeNode) path = none := by
  intro path
  rcases path with _ | ⟨i, _ | ⟨j, is⟩⟩ <;> rfl

theorem walkLoop_shape (maxE : Nat) (pats globs : List String)
    (recurse : List FSEntry → String → String → Nat → List TreeNode × Nat) :
    ∀ (entries : List FSEntry) (relDir dirPath : String)
      (ns : List TreeNode) (c : Nat),
      (∀ n ∈ ns, n.children = none ∨
        ∃ sub rp fp c', n.children = some (recurse sub rp fp c').1) →
      ∀ n ∈ (walkLoop maxE pats globs recurse entries relDir dirPath (ns, c)).1,
        n.children = none ∨
          ∃ sub rp fp c', n.children = some (recurse sub rp fp c').1 := by
  intro entries
  induction entries with
  | nil => intro rd dp ns c hns; simpa [walkLoop] using hns
  | cons e rest ih =>
    intro rd dp ns c hns
    unfold walkLoop
    by_cases hc : maxE ≤ c
    · rw [if_pos hc]
      exact hns
    · rw [if_neg hc]
      by_cases hig : shouldIgnore e.name
          (if rd = "" then e.name else rd ++ "/" ++ e.name) e.isDir pats globs
      · simp only [hig, if_pos]
        exact ih rd dp ns c hns
      · simp only [hig, if_neg, Bool.false_eq_true, not_false_eq_true]
        cases e with
        | file n =>
          apply ih
          intro n' hn'
          rcases List.mem_append.mp hn' with h | h
          · exact hns n' h
          · rcases List.mem_singleton.mp h with rfl
            left
            rfl
        | dir n sub =>
          apply ih
          intro n' hn'
          rcases List.mem_append.mp hn' with h | h
          · exact hns n' h
          · rcases List.mem_singleton.mp h with rfl
            right
            exact ⟨sub, _, _, _, rfl⟩

theorem childAt_walkGo (maxE : Nat) (pats globs : List String) :
    ∀ (fuel : Nat) (entries : List FSEntry) (relDir dirPath : String)
      (cnt : Nat) (path : List Nat), fuel < path.length →
      childAt (walkGo maxE pats globs fuel entries relDir dirPath cnt).1 path = none := by
  intro fuel
  induction fuel with
  | zero =>
    intro entries rd dp cnt path h
    rcases path with _ | ⟨i, _ | ⟨j, is⟩⟩ <;> rfl
  | succ f ih =>
    intro entries rd dp cnt path h
    rcases path with _ | ⟨i, is⟩
    · simp at h
    · have his : f < is.length := Nat.lt_of_succ_lt_succ h
      unfold walkGo
      by_cases hc : maxE ≤ cnt
      · rw [if_pos hc]
        rcases is with _ | ⟨j, is'⟩
        · simp at his
        · rfl
      · rw [if_neg hc]
        rcases is with _ | ⟨j, is'⟩
        · simp at his
        · cases hfi : (walkLoop maxE pats globs (walkGo maxE pats globs f)
              (sortEntries entries) rd dp ([], cnt)).1[i]? with
          | none => simp [childAt, hfi]
          | some n =>
            obtain ⟨hlt, rfl⟩ := List.getElem?_eq_some.mp hfi
            have hmem :
                (walkLoop maxE pats globs (walkGo maxE pats globs f)
                  (sortEntries entries) rd dp ([], cnt)).1[i] ∈
                (walkLoop maxE pats globs (walkGo maxE pats globs f)
                  (sortEntries entries) rd dp ([], cnt)).1 := List.getElem_mem hlt
            have hshape := walkLoop_shape maxE pats globs (walkGo maxE pats globs f)
              (sortEntries entries) rd dp [] cnt (by intro n hn; cases hn) _ hmem
            rcases hshape with hnone | ⟨sub, rp, fp, c', hsome⟩
            · simp only [childAt, hfi, hnone, Option.getD_none]
              exact childAt_nil _
            · simp only [childAt, hfi, hsome, Option.getD_some]
              exact ih sub rp fp c' (j :: is') his

/-! ## Claim C7 (corrected) -/

/-- C7 (counterexample): with the default `maxDepth = 4` the walk still
emits the file `e` of `a/b/c/d/e`, a node nested five levels below the
root — deeper than the four levels the claim allows.  (The guard is
`depth > maxDepth`, so the call reading directory `d`, made at depth
4, still lists its entries.) -/
theorem C7_depth_counterexample :
    (childAt (walkTree "/r" chain5 none defaultWalkOptions) [0, 0, 0, 0, 0]).isSome =
      true := by
  decide

/-- C7 (amended): counting the root as depth 0, `walkTree` never emits a
node nested deeper than `maxDepth + 1` levels below the root (five
levels with the default `maxDepth = 4`): descending along any index
path longer than `maxDepth + 1` finds no node. -/
theorem C7_depth_amended (rootPath : String) (rootEntries : List FSEntry)
    (gitignore : Option String) (options : WalkOptions) (path : List Nat)
    (h : options.maxDepth + 1 < path.length) :
    childAt (walkTree rootPath rootEntries gitignore options) path = none := by
  unfold walkTree
  exact childAt_walkGo _ _ _ _ _ _ _ _ path h

theorem C7_depth_amended_witness :
    defaultWalkOptions.maxDepth + 1 < ([0, 0, 0, 0, 0, 0] : List Nat).length ∧
    childAt (walkTree "/r" chain5 none defaultWalkOptions) [0, 0, 0, 0, 0, 0] = none :=
  ⟨by decide,
    C7_depth_amended "/r" chain5 none defaultWalkOptions [0, 0, 0, 0, 0, 0] (by decide)⟩

/-! ## Order theory for the sort comparators (claim C3) -/

theorem natCmp_eq_iff {a b : Nat} : natCmp a b = .eq ↔ a = b := by
  unfold natCmp
  split_ifs with h1 h2 <;> simp_all <;> omega

theorem natCmp_lt_iff {a b : Nat} : natCmp a b = .lt ↔ a < b := by
  unfold natCmp
  split_ifs with h1 h2 <;> simp_all <;> omega

theorem natCmp_gt_iff {a b : Nat} : natCmp a b = .gt ↔ b < a := by
  unfold natCmp
  split_ifs with h1 h2 <;> simp_all <;> omega

theorem lexCmpNat_eq_iff : ∀ {xs ys : List Nat}, lexCmpNat xs ys = .eq ↔ xs = ys := by
  intro xs
  induction xs with
  | nil => intro ys; cases ys <;> simp [lexCmpNat]
  | cons a as ih =>
    intro ys
    cases ys with
    | nil => simp [lexCmpNat]
    | cons b bs =>
      simp only [lexCmpNat]
      cases h : natCmp a b with
      | eq =>
        have hab : a = b := natCmp_eq_iff.mp h
        simp [hab, ih]
      | lt =>
        have hab : a < b := natCmp_lt_iff.mp h
        simp
        intro he
        omega
      | gt =>
        have hab : b < a := natCmp_gt_iff.mp h
        simp
        intro he
        omega

theorem lexCmpNat_gt_iff_lt :
    ∀ {xs ys : List Nat}, lexCmpNat xs ys = .gt ↔ lexCmpNat ys xs = .lt := by
  intro xs
  induction xs with
  | nil => intro ys; cases ys <;> simp [lexCmpNat]
  | cons a as ih =>
    intro ys
    cases ys with
    | nil => simp [lexCmpNat]
    | cons b bs =>
      simp only [lexCmpNat]
      cases h : natCmp a b with
      | eq =>
        have hab : a = b := natCmp_eq_iff.mp h
        have : natCmp b a = .eq := natCmp_eq_iff.mpr hab.symm
        simp [this, ih]
      | lt =>
        have hab : a < b := natCmp_lt_iff.mp h
        have : natCmp b a = .gt := natCmp_gt_iff.mpr hab
        simp [this]
      | gt =>
        have hab : b < a := natCmp_gt_iff.mp h
        have : natCmp b a = .lt := natCmp_lt_iff.mpr hab
        simp [this]

theorem lexCmpNat_lt_trans :
    ∀ {xs ys zs : List Nat}, lexCmpNat xs ys = .lt → lexCmpNat ys zs = .lt →
      lexCmpNat xs zs = .lt := by
  intro xs
  induction xs with
  | nil =>
    intro ys zs h1 h2
    cases ys with
    | nil => simp [lexCmpNat] at h1
    | cons b bs =>
      cases zs with
      | nil => simp [lexCmpNat] at h2
      | cons c cs => simp [lexCmpNat]
  | cons a as ih =>
    intro ys zs h1 h2
    cases ys with
    | nil => simp [lexCmpNat] at h1
    | cons b bs =>
      cases zs with
      | nil => simp [lexCmpNat] at h2
      | cons c cs =>
        simp only [lexCmpNat] at h1 h2 ⊢
        cases hab : natCmp a b with
        | gt => rw [hab] at h1; exact absurd h1 (by simp)
        | lt =>
          have h1' : a < b := natCmp_lt_iff.mp hab
          cases hbc : natCmp b c with
          | gt => rw [hbc] at h2; exact absurd h2 (by simp)
          | lt =>
            have h2' : b < c := natCmp_lt_iff.mp hbc
            rw [natCmp_lt_iff.mpr (by omega : a < c)]
          | eq =>
            have h2' : b = c := natCmp_eq_iff.mp hbc
            rw [natCmp_lt_iff.mpr (by omega : a < c)]
        | eq =>
          have h1' : a = b := natCmp_eq_iff.mp hab
          rw [hab] at h1
          cases hbc : natCmp b c with
          | gt => rw [hbc] at h2; exact absurd h2 (by simp)
          | lt =>
            have h2' : b < c := natCmp_lt_iff.mp hbc
            rw [natCmp_lt_iff.mpr (by omega : a < c)]
          | eq =>
            have h2' : b = c := natCmp_eq_iff.mp hbc
            rw [hbc] at h2
            rw [natCmp_eq_iff.mpr (by omega : a = c)]
            exact ih h1 h2

theorem localeCompare_le_iff {a b : String} :
    localeCompare a b ≤ 0 ↔ localeOrd a b ≠ .gt := by
  unfold localeCompare
  cases localeOrd a b <;> simp

theorem localeOrd_total (a b : String) : localeOrd a b ≠ .gt ∨ localeOrd b a ≠ .gt := by
  unfold localeOrd
  cases h : lexCmpNat (a.data.map primChar) (b.data.map primChar) with
  | lt => left; simp
  | gt =>
    right
    rw [lexCmpNat_gt_iff_lt.mp h]
    simp
  | eq =>
    have hk : a.data.map primChar = b.data.map primChar := lexCmpNat_eq_iff.mp h
    rw [lexCmpNat_eq_iff.mpr hk.symm]
    cases h2 : lexCmpNat (a.data.map caseChar) (b.data.map caseChar) with
    | lt => left; simp
    | gt =>
      right
      rw [lexCmpNat_gt_iff_lt.mp h2]
      simp
    | eq =>
      left
      simp

theorem lexCmpNat_ne_gt_trans {xs ys zs : List Nat}
    (h1 : lexCmpNat xs ys ≠ .gt) (h2 : lexCmpNat ys zs ≠ .gt) :
    lexCmpNat xs zs ≠ .gt := by
  cases hab : lexCmpNat xs ys with
  | gt => exact absurd hab h1
  | eq =>
    rw [lexCmpNat_eq_iff.mp hab]
    exact h2
  | lt =>
    cases hbc : lexCmpNat ys zs with
    | gt => exact absurd hbc h2
    | eq =>
      rw [← lexCmpNat_eq_iff.mp hbc]
      rw [hab]
      simp
    | lt =>
      rw [lexCmpNat_lt_trans hab hbc]
      simp

theorem localeOrd_trans {a b c : String}
    (h1 : localeOrd a b ≠ .gt) (h2 : localeOrd b c ≠ .gt) : localeOrd a c ≠ .gt := by
  unfold localeOrd at h1 h2 ⊢
  cases hab : lexCmpNat (a.data.map primChar) (b.data.map primChar) with
  | gt => rw [hab] at h1; exact absurd rfl h1
  | eq =>
    have hk : a.data.map primChar = b.data.map primChar := lexCmpNat_eq_iff.mp hab
    rw [hab] at h1
    cases hbc : lexCmpNat (b.data.map primChar) (c.data.map primChar) with
    | gt => rw [hbc] at h2; exact absurd rfl h2
    | eq =>
      have hk2 : b.data.map primChar = c.data.map primChar := lexCmpNat_eq_iff.mp hbc
      rw [hbc] at h2
      rw [lexCmpNat_eq_iff.mpr (hk.trans hk2)]
      cases hcc : lexCmpNat (a.data.map caseChar) (b.data.map caseChar) with
      | gt => rw [hcc] at h1; exact absurd rfl h1
      | lt =>
        cases hcc2 : lexCmpNat (b.data.map caseChar) (c.data.map caseChar) with
        | gt => rw [hcc2] at h2; exact absurd rfl h2
        | lt => rw [lexCmpNat_lt_trans hcc hcc2]; simp
        | eq => rw [← lexCmpNat_eq_iff.mp hcc2, hcc]; simp
      | eq =>
        rw [lexCmpNat_eq_iff.mp hcc]
        exact h2
    | lt =>
      rw [hk, hbc]
      simp
  | lt =>
    cases hbc : lexCmpNat (b.data.map primChar) (c.data.map primChar) with
    | gt => rw [hbc] at h2; exact absurd rfl h2
    | eq =>
      rw [← lexCmpNat_eq_iff.mp hbc, hab]
      simp
    | lt =>
      rw [lexCmpNat_lt_trans hab hbc]
      simp

theorem localeCompare_total (a b : String) :
    localeCompare a b ≤ 0 ∨ localeCompare b a ≤ 0 := by
  rcases localeOrd_total a b with h | h
  · exact Or.inl (localeCompare_le_iff.mpr h)
  · exact Or.inr (localeCompare_le_iff.mpr h)

theorem localeCompare_trans {a b c : String}
    (h1 : localeCompare a b ≤ 0) (h2 : localeCompare b c ≤ 0) :
    localeCompare a c ≤ 0 :=
  localeCompare_le_iff.mpr
    (localeOrd_trans (localeCompare_le_iff.mp h1) (localeCompare_le_iff.mp h2))

instance : IsTotal FSEntry entLe := by
  constructor
  intro a b
  unfold entLe entCmp
  by_cases h : a.isDir = b.isDir
  · rcases localeCompare_total a.name b.name with hle | hle
    · left; simpa [h] using hle
    · right; simpa [h] using hle
  · cases ha : a.isDir <;> cases hb : b.isDir <;> simp_all <;> omega

instance : IsTrans FSEntry entLe := by
  constructor
  intro a b c h1 h2
  unfold entLe entCmp at h1 h2 ⊢
  cases ha : a.isDir <;> cases hb : b.isDir <;> cases hc : c.isDir <;>
    simp_all <;>
    first
      | omega
      | exact localeCompare_trans h1 h2

instance : IsTotal TreeNode nodeLe := by
  constructor
  intro a b
  unfold nodeLe nodeCmp
  by_cases h : a.isDir = b.isDir
  · rcases localeCompare_total a.name b.name with hle | hle
    · left; simpa [h] using hle
    · right; simpa [h] using hle
  · cases ha : a.isDir <;> cases hb : b.isDir <;> simp_all <;> omega

instance : IsTrans TreeNode nodeLe := by
  constructor
  intro a b c h1 h2
  unfold nodeLe nodeCmp at h1 h2 ⊢
  cases ha : a.isDir <;> cases hb : b.isDir <;> cases hc : c.isDir <;>
    simp_all <;>
    first
      | omega
      | exact localeCompare_trans h1 h2

theorem nodeCmp_eq_entCmp (e e' : FSEntry) (p p' : String)
    (cs cs' : Option (List TreeNode)) (gs gs' : Option GitStatus) :
    nodeCmp (TreeNode.mk e.name p e.isDir cs gs)
      (TreeNode.mk e'.name p' e'.isDir cs' gs') = entCmp e e' := rfl

theorem walkLoop_pairwise (maxE : Nat) (pats globs : List String)
    (recurse : List FSEntry → String → String → Nat → List TreeNode × Nat) :
    ∀ (entries : List FSEntry) (relDir dirPath : String)
      (ns : List TreeNode) (c : Nat),
      List.Pairwise entLe entries →
      List.Pairwise nodeLe ns →
      (∀ n ∈ ns, ∀ e ∈ entries, nodeLe n (TreeNode.mk e.name "" e.isDir none none)) →
      List.Pairwise nodeLe (walkLoop maxE pats globs recurse entries relDir dirPath (ns, c)).1 := by
  intro entries
  induction entries with
  | nil => intro rd dp ns c _ hns _; simpa [walkLoop] using hns
  | cons e rest ih =>
    intro rd dp ns c hent hns hmix
    unfold walkLoop
    by_cases hc : maxE ≤ c
    · rw [if_pos hc]
      exact hns
    · rw [if_neg hc]
      obtain ⟨hhead, hrest⟩ := List.pairwise_cons.mp hent
      by_cases hig : shouldIgnore e.name
          (if rd = "" then e.name else rd ++ "/" ++ e.name) e.isDir pats globs
      · simp only [hig, if_pos]
        exact ih rd dp ns c hrest hns
          (fun n hn e' he' => hmix n hn e' (List.mem_cons_of_mem e he'))
      · simp only [hig, if_neg, Bool.false_eq_true, not_false_eq_true]
        cases e with
        | file n =>
          apply ih rd dp _ _ hrest
          · rw [List.pairwise_append]
            refine ⟨hns, by simp, ?_⟩
            intro a ha b hb
            rcases List.mem_singleton.mp hb with rfl
            exact hmix a ha (.file n) (List.mem_cons_self _ _)
          · intro n' hn' e' he'
            rcases List.mem_append.mp hn' with h | h
            · exact hmix n' h e' (List.mem_cons_of_mem _ he')
            · rcases List.mem_singleton.mp h with rfl
              exact hhead e' he'
        | dir n sub =>
          apply ih rd dp _ _ hrest
          · rw [List.pairwise_append]
            refine ⟨hns, by simp, ?_⟩
            intro a ha b hb
            rcases List.mem_singleton.mp hb with rfl
            exact hmix a ha (.dir n sub) (List.mem_cons_self _ _)
          · intro n' hn' e' he'
            rcases List.mem_append.mp hn' with h | h
            · exact hmix n' h e' (List.mem_cons_of_mem _ he')
            · rcases List.mem_singleton.mp h with rfl
              exact hhead e' he'

theorem walkGo_pairwise (maxE : Nat) (pats globs : List String)
    (fuel : Nat) (entries : List FSEntry) (relDir dirPath : String) (cnt : Nat) :
    List.Pairwise nodeLe (walkGo maxE pats globs fuel entries relDir dirPath cnt).1 := by
  cases fuel with
  | zero => exact List.Pairwise.nil
  | succ f =>
    unfold walkGo
    by_cases hc : maxE ≤ cnt
    · rw [if_pos hc]
      exact List.Pairwise.nil
    · rw [if_neg hc]
      apply walkLoop_pairwise
      · exact List.sorted_insertionSort entLe entries
      · exact List.Pairwise.nil
      · intro n hn
        cases hn

theorem siblingsAt_empty : ∀ path, siblingsAt ([] : List TreeNode) path = [] := by
  intro path
  cases path <;> rfl

theorem siblingsAt_walkGo (maxE : Nat) (pats globs : List String) :
    ∀ (path : List Nat) (fuel : Nat) (entries : List FSEntry)
      (relDir dirPath : String) (cnt : Nat),
      List.Pairwise nodeLe
        (siblingsAt (walkGo maxE pats globs fuel entries relDir dirPath cnt).1 path) := by
  intro path
  induction path with
  | nil => intro fuel entries rd dp cnt; exact walkGo_pairwise maxE pats globs fuel entries rd dp cnt
  | cons i is ih =>
    intro fuel entries rd dp cnt
    cases fuel with
    | zero =>
      rw [show (walkGo maxE pats globs 0 entries rd dp cnt).1 = [] from rfl,
        siblingsAt_empty]
      exact List.Pairwise.nil
    | succ f =>
      unfold walkGo
      by_cases hc : maxE ≤ cnt
      · rw [if_pos hc]
        rw [show (([] : List TreeNode), cnt).1 = [] from rfl, siblingsAt_empty]
        exact List.Pairwise.nil
      · rw [if_neg hc]
        cases hfi : (walkLoop maxE pats globs (walkGo maxE pats globs f)
            (sortEntries entries) rd dp ([], cnt)).1[i]? with
        | none =>
          simp only [siblingsAt, hfi]
          exact List.Pairwise.nil
        | some n =>
          obtain ⟨hlt, rfl⟩ := List.getElem?_eq_some.mp hfi
          have hmem := List.getElem_mem hlt
          have hshape := walkLoop_shape maxE pats globs (walkGo maxE pats globs f)
            (sortEntries entries) rd dp [] cnt (by intro n hn; cases hn) _ hmem
          rcases hshape with hnone | ⟨sub, rp, fp, c', hsome⟩
          · simp only [siblingsAt, hfi, hnone, Option.getD_none]
            rw [siblingsAt_empty]
            exact List.Pairwise.nil
          · simp only [siblingsAt, hfi, hsome, Option.getD_some]
            exact ih f sub rp fp c'

theorem siblingsAt_bucketToNodes (rootPath : String) :
    ∀ (fuel : Nat) (b : Bucket) (parentPath : String) (path : List Nat),
      List.Pairwise nodeLe
        (siblingsAt (bucketToNodes rootPath fuel b parentPath) path) := by
  intro fuel
  induction fuel with
  | zero =>
    intro b pp path
    rw [show bucketToNodes rootPath 0 b pp = [] from rfl, siblingsAt_empty]
    exact List.Pairwise.nil
  | succ f ih =>
    intro b pp path
    cases path with
    | nil => exact List.sorted_insertionSort nodeLe _
    | cons i is =>
      cases hfi : (bucketToNodes rootPath (f + 1) b pp)[i]? with
      | none =>
        simp only [siblingsAt, hfi]
        exact List.Pairwise.nil
      | some n =>
        obtain ⟨hlt, rfl⟩ := List.getElem?_eq_some.mp hfi
        have hmem := List.getElem_mem hlt
        have hmem2 := (List.perm_insertionSort nodeLe _).mem_iff.mp hmem
        rcases List.mem_append.mp hmem2 with hdir | hfile
        · obtain ⟨pr, hpr, heq⟩ := List.mem_map.mp hdir
          have hch : (bucketToNodes rootPath (f + 1) b pp)[i].children =
              some (bucketToNodes rootPath f pr.2
                (if pp = "" then pr.1 else pp ++ "/" ++ pr.1)) := by
            rw [← heq]
            rfl
          simp only [siblingsAt, hfi, hch, Option.getD_some]
          exact ih pr.2 _ is
        · obtain ⟨fl, hfl, heq⟩ := List.mem_map.mp hfile
          have hch : (bucketToNodes rootPath (f + 1) b pp)[i].children = none := by
            rw [← heq]
            rfl
          simp only [siblingsAt, hfi, hch, Option.getD_none]
          rw [siblingsAt_empty]
          exact List.Pairwise.nil

/-! ## Claim C3 (corrected) -/

/-- C3 (counterexample): the sibling files `B` and `a` come out in the
order `a`, `B` (the comparator is `localeCompare`, which collates
case-insensitively at primary strength), which is not sorted by
case-sensitive code-point comparison, since code point `B` (0x42)
precedes `a` (0x61). -/
theorem C3_sibling_order_counterexample :
    (walkTree "/r" twoFiles none defaultWalkOptions).map TreeNode.name = ["a", "B"] ∧
    cpLe "a" "B" = false := by
  decide

/-- C3 (amended): in every forest produced by either build mode, every
sibling group is pairwise ordered by the code's comparator: all
directory nodes precede all file nodes, and nodes of the same kind are
ordered by `localeCompare` — the runtime's locale-aware collation
(modelled as ICU root order), not case-sensitive code-point
comparison. -/
theorem C3_sibling_order_amended :
    (∀ rootPath rootEntries gitignore options (path : List Nat),
      List.Pairwise nodeLe
        (siblingsAt (walkTree rootPath rootEntries gitignore options) path)) ∧
    (∀ rootPath changes (path : List Nat),
      List.Pairwise nodeLe (siblingsAt (buildGitTree rootPath changes) path)) := by
  constructor
  · intro root entries gi opts path
    unfold walkTree
    exact siblingsAt_walkGo _ _ _ path _ _ _ _ _
  · intro root changes path
    unfold buildGitTree
    by_cases h : changes.isEmpty
    · rw [if_pos h, siblingsAt_empty]
      exact List.Pairwise.nil
    · rw [if_neg h]
      exact siblingsAt_bucketToNodes _ _ _ _ path

/-! ## The flatten invariant (claim C1) -/

theorem getElem?_cons_append_left (entry : FlatEntry) (sub L2 : List FlatEntry)
    (j : Nat) (h : j < sub.length) :
    (entry :: (sub ++ L2))[j + 1]? = sub[j]? := by
  rw [List.getElem?_cons_succ, List.getElem?_append_left h]

theorem getElem?_cons_append_right (entry : FlatEntry) (sub L2 : List FlatEntry)
    (j : Nat) :
    (entry :: (sub ++ L2))[1 + sub.length + j]? = L2[j]? := by
  have h1 : 1 + sub.length + j = (sub.length + j) + 1 := by omega
  rw [h1, List.getElem?_cons_succ, List.getElem?_append_right (by omega)]
  congr 1
  omega

theorem flatOk_step (start : Nat) (pi : Int) (entry : FlatEntry)
    (sub L2 : List FlatEntry)
    (hpar : entry.parentIndex = pi)
    (hfci : entry.firstChildIndex = -1 ∨
      (sub ≠ [] ∧ entry.firstChildIndex = ((start + 1 : Nat) : Int)))
    (hsub : FlatOk (start + 1) ((start : Nat) : Int) sub)
    (hL2 : FlatOk (start + 1 + sub.length) pi L2) :
    FlatOk start pi (entry :: (sub ++ L2)) := by
  intro k e hk
  cases k with
  | zero =>
    rw [List.getElem?_cons_zero, Option.some_inj] at hk
    subst hk
    refine ⟨Or.inl hpar, ?_⟩
    rcases hfci with h | ⟨hne, hf⟩
    · exact Or.inl h
    · right
      refine ⟨1, Nat.zero_lt_one, hf, ?_⟩
      obtain ⟨e0, he0⟩ : ∃ e0, sub[0]? = some e0 := by
        cases sub with
        | nil => exact absurd rfl hne
        | cons a t => exact ⟨a, List.getElem?_cons_zero⟩
      have hlen0 : 0 < sub.length := by
        cases sub with
        | nil => exact absurd rfl hne
        | cons a t => simp
      refine ⟨e0, ?_, ?_⟩
      · rw [show (1 : Nat) = 0 + 1 from rfl, getElem?_cons_append_left _ _ _ 0 hlen0]
        exact he0
      · rcases (hsub 0 e0 he0).1 with h0 | ⟨j, hj, _⟩
        · rw [h0]
          omega
        · omega
  | succ k' =>
    rw [List.getElem?_cons_succ] at hk
    by_cases hlt : k' < sub.length
    · rw [List.getElem?_append_left hlt] at hk
      have hs := hsub k' e hk
      constructor
      · rcases hs.1 with h | ⟨j, hj, hp⟩
        · right
          refine ⟨0, by omega, ?_⟩
          rw [h]
          omega
        · right
          refine ⟨j + 1, by omega, ?_⟩
          rw [hp]
          omega
      · rcases hs.2 with h | ⟨j, hj, hf, e', he', hp'⟩
        · exact Or.inl h
        · right
          have hjlen : j < sub.length := by
            rcases List.getElem?_eq_some.mp he' with ⟨hl, _⟩
            exact hl
          refine ⟨j + 1, by omega, ?_, e', ?_, ?_⟩
          · rw [hf]
            omega
          · rw [getElem?_cons_append_left _ _ _ j hjlen]
            exact he'
          · rw [hp']
            omega
    · push_neg at hlt
      rw [List.getElem?_append_right hlt] at hk
      have hs := hL2 (k' - sub.length) e hk
      constructor
      · rcases hs.1 with h | ⟨j, hj, hp⟩
        · exact Or.inl h
        · right
          refine ⟨1 + sub.length + j, by omega, ?_⟩
          rw [hp]
          omega
      · rcases hs.2 with h | ⟨j, hj, hf, e', he', hp'⟩
        · exact Or.inl h
        · right
          refine ⟨1 + sub.length + j, by omega, ?_, e', ?_, ?_⟩
          · rw [hf]
            omega
          · rw [getElem?_cons_append_right]
            exact he'
          · rw [hp']
            omega

theorem flattenGo_cons_empty (n : TreeNode) (rest : List TreeNode) (depth : Nat)
    (pre : String) (pi : Int) (start : Nat)
    (h : (n.children.getD []).isEmpty = true) :
    flattenGo (n :: rest) depth pre pi start =
      (⟨n, depth, pre, if rest.isEmpty then "└── " else "├── ", pi, -1⟩ : FlatEntry) ::
        flattenGo rest depth pre pi (start + 1) := by
  simp [flattenGo, h]

theorem flattenGo_cons_kids (n : TreeNode) (rest : List TreeNode) (depth : Nat)
    (pre : String) (pi : Int) (start : Nat)
    (h : (n.children.getD []).isEmpty = false) :
    flattenGo (n :: rest) depth pre pi start =
      (⟨n, depth, pre, if rest.isEmpty then "└── " else "├── ", pi,
          ((start + 1 : Nat) : Int)⟩ : FlatEntry) ::
        (flattenGo (n.children.getD []) (depth + 1)
            (pre ++ if rest.isEmpty then "    " else "│   ") ((start : Nat) : Int)
            (start + 1) ++
          flattenGo rest depth pre pi
            (start + 1 + (flattenGo (n.children.getD []) (depth + 1)
              (pre ++ if rest.isEmpty then "    " else "│   ") ((start : Nat) : Int)
              (start + 1)).length)) := by
  simp [flattenGo, h]

theorem flatOk_nil (start : Nat) (pi : Int) : FlatOk start pi [] := by
  intro k e hk
  simp at hk

theorem flattenGo_ne_nil (nodes : List TreeNode) (depth : Nat) (pre : String)
    (pi : Int) (start : Nat) (h : nodes ≠ []) :
    flattenGo nodes depth pre pi start ≠ [] := by
  cases nodes with
  | nil => exact absurd rfl h
  | cons n rest =>
    cases hk : (n.children.getD []).isEmpty with
    | true =>
      rw [flattenGo_cons_empty n rest depth pre pi start hk]
      simp
    | false =>
      rw [flattenGo_cons_kids n rest depth pre pi start hk]
      simp

theorem flattenGo_ok (nodes : List TreeNode) (depth : Nat) (pre : String)
    (pi : Int) (start : Nat) :
    FlatOk start pi (flattenGo nodes depth pre pi start) := by
  induction nodes, depth, pre, pi, start using flattenGo.induct with
  | case1 depth pre pi start =>
    have h0 : flattenGo [] depth pre pi start = [] := by simp [flattenGo]
    rw [h0]
    exact flatOk_nil start pi
  | case2 n rest depth pre parentIdx start isLast childPre kids sub ih1 ih1' ih2 =>
    cases hk0 : (n.children.getD []).isEmpty with
    | true =>
      unfold_let sub kids at ih2
      rw [hk0] at ih2
      simp only [dite_eq_ite] at ih2
      simp at ih2
      rw [flattenGo_cons_empty n rest depth pre parentIdx start hk0]
      exact flatOk_step start parentIdx _ [] _ rfl (Or.inl rfl) (flatOk_nil _ _) ih2
    | false =>
      have hkid_ne : n.children.getD [] ≠ [] := by
        intro he
        rw [he] at hk0
        simp at hk0
      have h1 := ih1' (by simp [hk0])
      simp only [dite_eq_ite] at h1
      unfold_let sub kids childPre isLast at ih2
      rw [hk0] at ih2
      simp only [dite_eq_ite] at ih2
      simp at ih2
      rw [flattenGo_cons_kids n rest depth pre parentIdx start hk0]
      exact flatOk_step start parentIdx _ _ _ rfl
        (Or.inr ⟨flattenGo_ne_nil _ _ _ _ _ hkid_ne, rfl⟩) h1 ih2

/-! ## Claim C1 (confirmed) -/

/-- C1: for every forest, every entry of `flattenTree`'s output either
has `firstChildIndex = -1` or points at a valid index whose entry's
`parentIndex` is the entry's own index; and every `parentIndex` and
`firstChildIndex` is `-1` or a valid index into the sequence. -/
theorem C1_flatten_links (forest : List TreeNode) (k : Nat) (e : FlatEntry)
    (hk : (flattenTree forest)[k]? = some e) :
    (e.firstChildIndex = -1 ∨
      ∃ j : Nat, j < (flattenTree forest).length ∧ e.firstChildIndex = (j : Int) ∧
        ∃ e', (flattenTree forest)[j]? = some e' ∧ e'.parentIndex = (k : Int)) ∧
    (e.parentIndex = -1 ∨
      ∃ j : Nat, j < (flattenTree forest).length ∧ e.parentIndex = (j : Int)) := by
  have h := flattenGo_ok forest 0 "" (-1) 0 k e hk
  constructor
  · rcases h.2 with hf | ⟨j, hj, hfe, e', he', hp⟩
    · exact Or.inl hf
    · right
      have hjlen : j < (flattenTree forest).length := (List.getElem?_eq_some.mp he').1
      exact ⟨j, hjlen, by simpa using hfe, e', he', by simpa using hp⟩
  · rcases h.1 with hp | ⟨j, hj, hpe⟩
    · exact Or.inl hp
    · right
      have hklen : k < (flattenTree forest).length := (List.getElem?_eq_some.mp hk).1
      exact ⟨j, by omega, by simpa using hpe⟩

theorem C1_flatten_links_witness :
    (flattenTree dirForest)[0]? =
      some ⟨TreeNode.mk "d" "/r/d" true
        (some [TreeNode.mk "x" "/r/d/x" false none none]) none,
        0, "", "└── ", -1, 1⟩ ∧
    (((⟨TreeNode.mk "d" "/r/d" true
        (some [TreeNode.mk "x" "/r/d/x" false none none]) none,
        0, "", "└── ", -1, 1⟩ : FlatEntry).firstChildIndex = -1 ∨
      ∃ j : Nat, j < (flattenTree dirForest).length ∧
        ((⟨TreeNode.mk "d" "/r/d" true
          (some [TreeNode.mk "x" "/r/d/x" false none none]) none,
          0, "", "└── ", -1, 1⟩ : FlatEntry).firstChildIndex = (j : Int)) ∧
        ∃ e', (flattenTree dirForest)[j]? = some e' ∧
          e'.parentIndex = ((0 : Nat) : Int)) ∧
    ((⟨TreeNode.mk "d" "/r/d" true
        (some [TreeNode.mk "x" "/r/d/x" false none none]) none,
        0, "", "└── ", -1, 1⟩ : FlatEntry).parentIndex = -1 ∨
      ∃ j : Nat, j < (flattenTree dirForest).length ∧
        ((⟨TreeNode.mk "d" "/r/d" true
          (some [TreeNode.mk "x" "/r/d/x" false none none]) none,
          0, "", "└── ", -1, 1⟩ : FlatEntry).parentIndex = (j : Int)))) := by
  have hEval : (flattenTree dirForest)[0]? =
      some ⟨TreeNode.mk "d" "/r/d" true
        (some [TreeNode.mk "x" "/r/d/x" false none none]) none,
        0, "", "└── ", -1, 1⟩ := by
    simp [flattenTree, flattenGo, dirForest, TreeNode.children]
  exact ⟨hEval, C1_flatten_links dirForest 0 _ hEval⟩
